import Mathlib

/-!
Verification of the SQLite-to-MySQL converter (src/SQLtoMy.py) against its
specification.  The Python source is shallowly embedded below: pure helper
functions become Lean functions, the Kahn topological sort becomes explicit
state passing over a fueled loop, and the per-value encoder of the data
exporter becomes a pure function that returns both the emitted SQL literal
and the list of external blob files it writes (path and contents).  Machine
integers of the source are arbitrary-precision in Python, so they are
modelled as `Int`/`Nat` without wrap-around.
-/

/-! ## Characters used in emitted SQL, built by code point so the embedding
is independent of source-file escaping.  `squoteC` is the single quote,
`nulC` the NUL byte, `nlC` the newline. -/

def squoteC : Char := Char.ofNat 39

def nulC : Char := Char.ofNat 0

def nlC : Char := Char.ofNat 10

def sqS : String := String.mk [squoteC]

/-! ## Type mapper (SQLtoMy.py lines 86-120, `sqlite_to_mysql_type`). -/

/-- Python `str.upper()` restricted to ASCII, which is the alphabet of the
SQLite type names the converter handles; written over the character list so
that concrete instances reduce definitionally. -/
def pyUpper (s : String) : String := String.mk (s.data.map Char.toUpper)

/-- The `mapping` dict of line 87 together with the `.get(sqlite_type,
sqlite_type)` lookup of line 101: unknown type names pass through unchanged. -/
def typeMapping (st : String) (isPrim : Bool) : String :=
  if st = "TEXT" then "TEXT"
  else if st = "INTEGER" then (if isPrim then "BIGINT" else "INT")
  else if st = "REAL" then "DOUBLE"
  else if st = "BLOB" then "LONGBLOB"
  else if st = "NULL" then "NULL"
  else if st = "DATETIME" then "DATETIME"
  else if st = "DATE" then "DATE"
  else if st = "BOOLEAN" then "BOOLEAN"
  else if st = "NUMERIC" then "DECIMAL(10,2)"
  else if st = "DECIMAL" then "DECIMAL(10,2)"
  else st

/-- The nullability suffix of line 120: `' DEFAULT NULL' if nullable else ' NOT NULL'`. -/
def nullSuffix (nullable : Bool) : String :=
  if nullable then " DEFAULT NULL" else " NOT NULL"

/-- Lines 100-118: the `base_type` computation.  `max_length`/`max_value` are
`None`-able in Python, hence `Option Int`.  The observed-statistics branches
(lines 103-115) override the dict lookup, including its primary-key case. -/
def sqliteToMysqlBase (st : String) (max_length : Option Int)
    (max_value : Option Int) (isPrim : Bool) : String :=
  let base := typeMapping st isPrim
  let base :=
    if st = "TEXT" then
      match max_length with
      | some l =>
        if l > 65535 then "LONGTEXT"
        else if l > 255 then "TEXT"
        else "VARCHAR(" ++ toString (min l 255) ++ ")"
      | none => base
    else if st = "INTEGER" then
      match max_value with
      | some v =>
        if -2147483648 ≤ v ∧ v ≤ 2147483647 then "INT"
        else if -9223372036854775808 ≤ v ∧ v ≤ 9223372036854775807 then "BIGINT"
        else base
      | none => base
    else base
  if isPrim ∧ st = "INTEGER" then base ++ " AUTO_INCREMENT" else base

/-- SQLtoMy.py lines 86-120, `sqlite_to_mysql_type`: the full column type
clause, base type followed by the nullability suffix. -/
def sqlite_to_mysql_type (sqliteType : String) (max_length : Option Int)
    (nullable : Bool) (max_value : Option Int) (isPrim : Bool) : String :=
  sqliteToMysqlBase (pyUpper sqliteType) max_length max_value isPrim
    ++ nullSuffix nullable

/-- C5: the type mapper's boundary cases: observed text length 255 gives
VARCHAR(255), 256 gives TEXT, 65536 gives LONGTEXT; a non-primary-key integer
column with observed maximum 2147483647 gives INT and 2147483648 gives BIGINT. -/
theorem type_mapper_boundaries (nb : Bool) :
    sqlite_to_mysql_type "TEXT" (some 255) nb none false
        = "VARCHAR(255)" ++ nullSuffix nb
    ∧ sqlite_to_mysql_type "TEXT" (some 256) nb none false
        = "TEXT" ++ nullSuffix nb
    ∧ sqlite_to_mysql_type "TEXT" (some 65536) nb none false
        = "LONGTEXT" ++ nullSuffix nb
    ∧ sqlite_to_mysql_type "INTEGER" none nb (some 2147483647) false
        = "INT" ++ nullSuffix nb
    ∧ sqlite_to_mysql_type "INTEGER" none nb (some 2147483648) false
        = "BIGINT" ++ nullSuffix nb := by
  cases nb <;> exact ⟨rfl, rfl, rfl, rfl, rfl⟩

/-- C2 counterexample: an INTEGER primary-key column whose observed maximum
magnitude is 100 is emitted as the 4-byte INT type (with AUTO_INCREMENT), not
as the 8-byte BIGINT type: the observed-magnitude branch of lines 111-115
overwrites the primary-key BIGINT choice of line 89 whenever a maximum is
supplied, and the caller (line 256-262) always supplies one (defaulting to 0). -/
theorem pk_integer_narrowed_counterexample :
    sqlite_to_mysql_type "INTEGER" none false (some 100) true
        = "INT AUTO_INCREMENT NOT NULL"
    ∧ sqlite_to_mysql_type "INTEGER" none false (some 100) true
        ≠ "BIGINT AUTO_INCREMENT NOT NULL" := by
  exact ⟨rfl, by decide⟩

/-- C2 amended: an INTEGER primary-key column is always marked
AUTO_INCREMENT, but its width follows the observed-magnitude rule: a maximum
within the signed 32-bit range yields INT; a maximum outside that range but
within the signed 64-bit range, or no observed maximum at all, yields BIGINT. -/
theorem pk_integer_width_rule (nb : Bool) (v : Int) :
    (-2147483648 ≤ v → v ≤ 2147483647 →
      sqlite_to_mysql_type "INTEGER" none nb (some v) true
        = "INT AUTO_INCREMENT" ++ nullSuffix nb)
    ∧ ((v < -2147483648 ∨ 2147483647 < v) → -9223372036854775808 ≤ v →
        v ≤ 9223372036854775807 →
      sqlite_to_mysql_type "INTEGER" none nb (some v) true
        = "BIGINT AUTO_INCREMENT" ++ nullSuffix nb)
    ∧ sqlite_to_mysql_type "INTEGER" none nb none true
        = "BIGINT AUTO_INCREMENT" ++ nullSuffix nb := by
  have hup : pyUpper "INTEGER" = "INTEGER" := rfl
  refine ⟨fun h1 h2 => ?_, fun h1 h2 h3 => ?_, ?_⟩
  · have hc : (-2147483648 ≤ v ∧ v ≤ 2147483647) = True := eq_true ⟨h1, h2⟩
    simp [sqlite_to_mysql_type, sqliteToMysqlBase, hup, hc]
  · have hc : (-2147483648 ≤ v ∧ v ≤ 2147483647) = False := eq_false (by omega)
    have hc' : (-9223372036854775808 ≤ v ∧ v ≤ 9223372036854775807) = True :=
      eq_true ⟨h2, h3⟩
    simp [sqlite_to_mysql_type, sqliteToMysqlBase, hup, hc, hc']
  · rfl

/-- Witness instantiating `pk_integer_width_rule` at concrete magnitudes 5
(narrowed to INT) and 3000000000 (kept at BIGINT). -/
theorem pk_integer_width_rule_witness :
    sqlite_to_mysql_type "INTEGER" none false (some 5) true
        = "INT AUTO_INCREMENT" ++ nullSuffix false
    ∧ sqlite_to_mysql_type "INTEGER" none false (some 3000000000) true
        = "BIGINT AUTO_INCREMENT" ++ nullSuffix false :=
  ⟨(pk_integer_width_rule false 5).1 (by decide) (by decide),
   (pk_integer_width_rule false 3000000000).2.1 (by decide) (by decide) (by decide)⟩

/-! ## Value sanitizer (SQLtoMy.py lines 49-52, `sanitize_sql_value`). -/

/-- Python `str.isprintable()`: exact on the ASCII and Latin-1 control ranges
(C0 controls, DEL, C1 controls are non-printable); characters at or above
U+00A0 are approximated as printable (Python consults the full Unicode
category tables, which only differ on rare separator/format characters and
never on the SQL metacharacters the converter cares about). -/
def pyIsPrintable (c : Char) : Bool :=
  if c.toNat < 32 then false
  else if c.toNat = 127 then false
  else if 128 ≤ c.toNat ∧ c.toNat ≤ 159 then false
  else true

/-- SQLtoMy.py lines 49-52: keep printable characters, then drop NUL bytes
(the `.replace` of a single-character pattern by the empty string is a
filter). Non-string values pass through unchanged, which the embedding
expresses by only ever applying this to string payloads. -/
def sanitize_sql_value (s : String) : String :=
  String.mk ((s.data.filter pyIsPrintable).filter (fun c => c ≠ nulC))

/-- Python `str.replace` of the single-quote character by two single quotes
(line 392): a single-character pattern scans left to right, so it is a
character-wise expansion. -/
def doubleQuotes (l : List Char) : List Char :=
  l.flatMap (fun c => if c = squoteC then [squoteC, squoteC] else [c])

/-- The emitted single-quoted string literal of line 392:
`f"'{sanitized.replace(chr(39), 2*chr(39))}'"`. -/
def strLit (s : String) : String :=
  sqS ++ String.mk (doubleQuotes (sanitize_sql_value s).data) ++ sqS

/-- Checker for the absence of unescaped quotes: every maximal run of
single-quote characters has even length, i.e. quotes only occur doubled. -/
def quotesDoubled : List Char → Bool
  | [] => true
  | c :: rest =>
    if c = squoteC then
      match rest with
      | c2 :: rest2 => c2 == squoteC && quotesDoubled rest2
      | [] => false
    else quotesDoubled rest

/-! ## Hex encoding of inline blobs (line 389, `col_value.hex()`) and its
MySQL-side decoding (`UNHEX`). -/

/-- Lower-case hex digit, as produced by Python `bytes.hex()`. -/
def hexDigit (n : Nat) : Char :=
  if n < 10 then Char.ofNat (48 + n) else Char.ofNat (87 + n)

def byteHexChars (b : Nat) : List Char := [hexDigit (b / 16), hexDigit (b % 16)]

def bytesHexChars (bs : List Nat) : List Char := bs.flatMap byteHexChars

/-- Python `bytes.hex()`: two lower-case hex digits per byte. -/
def bytesHex (bs : List Nat) : String := String.mk (bytesHexChars bs)

/-- Value of one hex digit, accepting both cases (MySQL UNHEX does). -/
def hexVal (c : Char) : Option Nat :=
  if 48 ≤ c.toNat ∧ c.toNat ≤ 57 then some (c.toNat - 48)
  else if 97 ≤ c.toNat ∧ c.toNat ≤ 102 then some (c.toNat - 87)
  else if 65 ≤ c.toNat ∧ c.toNat ≤ 70 then some (c.toNat - 55)
  else none

/-- MySQL `UNHEX`: decode a hex string two digits at a time; fails on odd
length or non-hex characters. -/
def unhexChars : List Char → Option (List Nat)
  | [] => some []
  | [_] => none
  | c1 :: c2 :: rest => do
      let h ← hexVal c1
      let l ← hexVal c2
      let r ← unhexChars rest
      pure ((h * 16 + l) :: r)

def unhex (s : String) : Option (List Nat) := unhexChars s.data

/-! ## Row values and the per-value encoder (SQLtoMy.py lines 356-400). -/

/-- A SQLite row value as seen by the Python data-export loop.  `realv`
carries the decimal text `str(float)` would produce, since the claims never
inspect float arithmetic; `other` carries `str(value)` for any other kind. -/
inductive PyValue where
  | pynone
  | blob (bs : List Nat)
  | str (s : String)
  | intv (n : Int)
  | realv (txt : String)
  | other (txt : String)

/-- The configuration the encoder branch of `create_sql_dump` reads: current
table/column/page-offset/column-index, and the blob-externalization options. -/
structure EncodeCtx where
  tableName : String
  colName : String
  rowOffset : Nat
  colIdx : Nat
  blobDir : Option String
  maxBlobSize : Nat
  relativeBlobPaths : Bool
  dumpFile : String

/-- Result of encoding one value: the emitted SQL literal and the external
blob files written as (path, contents) pairs. -/
structure EncResult where
  lit : String
  writes : List (String × List Nat)

def slashC : Char := Char.ofNat 47

/-- Model of `os.path.join` for the shapes the converter produces (an
absolute second component wins; otherwise a single separator is inserted). -/
def pathJoin (dir name : String) : String :=
  if name.data.head? = some slashC then name
  else if dir = "" then name
  else if dir.data.getLast? = some slashC then dir ++ name
  else dir ++ String.mk [slashC] ++ name

/-- Model of `os.path.dirname` on forward-slash paths without a trailing
slash (the only shapes reaching it here); a path without a separator has the
empty dirname. -/
def pyDirname (s : String) : String :=
  if slashC ∈ s.data then
    String.mk (((s.data.reverse.dropWhile (fun c => c ≠ slashC)).drop 1).reverse)
  else ""

def commonPrefixLen : List String → List String → Nat
  | a :: as, b :: bs => if a = b then 1 + commonPrefixLen as bs else 0
  | _, _ => 0

def splitPath (s : String) : List String :=
  (s.split (fun c => c = slashC)).filter (fun p => p ≠ "")

/-- Model of `os.path.relpath` for plain relative forward-slash paths: drop
the common prefix of components, go up once per remaining start component. -/
def pyRelpath (path start : String) : String :=
  let p := splitPath path
  let st := splitPath start
  let k := commonPrefixLen p st
  let parts := List.replicate (st.length - k) ".." ++ p.drop k
  if parts = [] then "." else String.intercalate (String.mk [slashC]) parts

/-- Line 367: `f"{item_name}_{col_name}_{offset}_{i}.bin"`. -/
def blobFileName (table col : String) (offset i : Nat) : String :=
  table ++ "_" ++ col ++ "_" ++ toString offset ++ "_" ++ toString i ++ ".bin"

/-- Abstraction of Python `str(bytes)`: printable ASCII bytes other than the
quote and backslash appear verbatim inside `b'...'`, everything else as a
hex-class escape.  This only feeds the declared-type-mismatch fallback branch
that no claim exercises. -/
def reprByteChars (b : Nat) : List Char :=
  if 32 ≤ b ∧ b ≤ 126 ∧ b ≠ 39 ∧ b ≠ 92 then [Char.ofNat b]
  else [Char.ofNat 92, Char.ofNat 120, hexDigit (b / 16 % 16), hexDigit (b % 16)]

def pyBytesRepr (bs : List Nat) : String :=
  "b" ++ sqS ++ String.mk (bs.flatMap reprByteChars) ++ sqS

/-- SQLtoMy.py lines 362-397: encode one row value.  The NULL check comes
first; a BLOB-typed byte value is externalized when over the configured
threshold and a (truthy, i.e. non-empty) blob directory is given, degraded to
NULL when over threshold without one, and emitted as a hex literal otherwise;
strings are sanitized and quote-doubled into a single-quoted literal; numbers
print as themselves; anything else is stringified and treated as a string.
File-system writes are modelled on their success path (the `OSError` handler
and the generic per-value exception handler degrade to NULL and are the
subject of no claim). -/
def encodeValue (ctx : EncodeCtx) (colType : String) (v : PyValue) : EncResult :=
  match v with
  | .pynone => ⟨"NULL", []⟩
  | .blob bs =>
    if colType = "BLOB" then
      match ctx.blobDir with
      | some dir =>
        if dir ≠ "" ∧ ctx.maxBlobSize < bs.length then
          let path := pathJoin dir
            (blobFileName ctx.tableName ctx.colName ctx.rowOffset ctx.colIdx)
          let ref := if ctx.relativeBlobPaths
            then pyRelpath path (pyDirname ctx.dumpFile) else path
          ⟨"LOAD_FILE(" ++ sqS ++ ref ++ sqS ++ ")", [(path, bs)]⟩
        else if ctx.maxBlobSize < bs.length then ⟨"NULL", []⟩
        else ⟨"UNHEX(" ++ sqS ++ bytesHex bs ++ sqS ++ ")", []⟩
      | none =>
        if ctx.maxBlobSize < bs.length then ⟨"NULL", []⟩
        else ⟨"UNHEX(" ++ sqS ++ bytesHex bs ++ sqS ++ ")", []⟩
    else ⟨strLit (pyBytesRepr bs), []⟩
  | .str s => ⟨strLit s, []⟩
  | .intv n => ⟨toString n, []⟩
  | .realv txt => ⟨txt, []⟩
  | .other txt => ⟨strLit txt, []⟩

/-! ## Lemmas about hex round-tripping and quote doubling. -/

theorem hexVal_hexDigit : ∀ n < 16, hexVal (hexDigit n) = some n := by decide

theorem unhexChars_bytesHexChars (bs : List Nat) (h : ∀ b ∈ bs, b < 256) :
    unhexChars (bytesHexChars bs) = some bs := by
  induction bs with
  | nil => rfl
  | cons b t ih =>
    have hb : b < 256 := h b (List.mem_cons_self b t)
    have hhi : b / 16 < 16 := Nat.div_lt_of_lt_mul hb
    have hlo : b % 16 < 16 := Nat.mod_lt _ (by norm_num)
    have ht : unhexChars (bytesHexChars t) = some t :=
      ih (fun x hx => h x (List.mem_cons_of_mem _ hx))
    have hcons : bytesHexChars (b :: t)
        = hexDigit (b / 16) :: hexDigit (b % 16) :: bytesHexChars t := rfl
    rw [hcons]
    simp only [unhexChars, hexVal_hexDigit _ hhi, hexVal_hexDigit _ hlo, ht,
      Option.bind_eq_bind, Option.some_bind]
    have : b / 16 * 16 + b % 16 = b := by
      have := Nat.div_add_mod b 16
      omega
    simp [this]

theorem quotesDoubled_doubleQuotes (l : List Char) :
    quotesDoubled (doubleQuotes l) = true := by
  induction l with
  | nil => rfl
  | cons c t ih =>
    by_cases hc : c = squoteC
    · have h1 : doubleQuotes (c :: t) = squoteC :: squoteC :: doubleQuotes t := by
        simp [doubleQuotes, hc]
      rw [h1]
      simp [quotesDoubled, ih]
    · have h1 : doubleQuotes (c :: t) = c :: doubleQuotes t := by
        simp [doubleQuotes, hc]
      rw [h1]
      cases hdq : doubleQuotes t with
      | nil => simp [quotesDoubled, hc]
      | cons d r => simp [quotesDoubled, hc, hdq ▸ ih]

theorem doubleQuotes_pair (l : List Char) (h : squoteC ∈ l) :
    [squoteC, squoteC] <:+: doubleQuotes l := by
  induction l with
  | nil => cases h
  | cons c t ih =>
    by_cases hc : c = squoteC
    · have h1 : doubleQuotes (c :: t) = squoteC :: squoteC :: doubleQuotes t := by
        simp [doubleQuotes, hc]
      rw [h1]
      exact ⟨[], doubleQuotes t, rfl⟩
    · have hmem : squoteC ∈ t := by
        rcases List.mem_cons.mp h with h' | h'
        · exact absurd h'.symm hc
        · exact h'
      have h1 : doubleQuotes (c :: t) = c :: doubleQuotes t := by
        simp [doubleQuotes, hc]
      rw [h1]
      obtain ⟨s, t2, hst⟩ := ih hmem
      exact ⟨c :: s, t2, by rw [← hst]; rfl⟩

theorem squote_mem_sanitize {s : String} (h : squoteC ∈ s.data) :
    squoteC ∈ (sanitize_sql_value s).data := by
  simp only [sanitize_sql_value]
  refine List.mem_filter.mpr ⟨List.mem_filter.mpr ⟨h, ?_⟩, ?_⟩
  · decide
  · decide

/-- C9: a NULL source value encodes as the literal NULL (and writes no
external file), for every declared column type and configuration: the
`col_value is None` check of line 363 precedes every type-specific branch. -/
theorem null_value_encodes_null (ctx : EncodeCtx) (colType : String) :
    (encodeValue ctx colType PyValue.pynone).lit = "NULL"
    ∧ (encodeValue ctx colType PyValue.pynone).writes = [] :=
  ⟨rfl, rfl⟩

/-- C7: a BLOB value at or under the inline threshold is emitted as a
hex-literal `UNHEX` constructor, no external file is written, and decoding
the hex string recovers exactly the original bytes. -/
theorem blob_inline_roundtrip (ctx : EncodeCtx) (bs : List Nat)
    (hlen : bs.length ≤ ctx.maxBlobSize) (hbytes : ∀ b ∈ bs, b < 256) :
    (encodeValue ctx "BLOB" (PyValue.blob bs)).lit
        = "UNHEX(" ++ sqS ++ bytesHex bs ++ sqS ++ ")"
    ∧ (encodeValue ctx "BLOB" (PyValue.blob bs)).writes = []
    ∧ unhex (bytesHex bs) = some bs := by
  have hnot : ¬ ctx.maxBlobSize < bs.length := Nat.not_lt.mpr hlen
  have hrt : unhex (bytesHex bs) = some bs := by
    show unhexChars (String.mk (bytesHexChars bs)).data = some bs
    exact unhexChars_bytesHexChars bs hbytes
  cases hd : ctx.blobDir with
  | none => exact ⟨by simp [encodeValue, hd, hnot], by simp [encodeValue, hd, hnot], hrt⟩
  | some dir =>
    have hcond : ¬ (dir ≠ "" ∧ ctx.maxBlobSize < bs.length) := by
      rintro ⟨-, hlt⟩; exact hnot hlt
    exact ⟨by simp [encodeValue, hd, hcond, hnot],
           by simp [encodeValue, hd, hcond, hnot], hrt⟩

/-- Witness for `blob_inline_roundtrip` at bytes [0, 171, 255] with
threshold 10. -/
theorem blob_inline_roundtrip_witness :
    (encodeValue ⟨"t", "c", 0, 1, none, 10, false, "d.sql"⟩ "BLOB"
        (PyValue.blob [0, 171, 255])).lit
      = "UNHEX(" ++ sqS ++ bytesHex [0, 171, 255] ++ sqS ++ ")"
    ∧ (encodeValue ⟨"t", "c", 0, 1, none, 10, false, "d.sql"⟩ "BLOB"
        (PyValue.blob [0, 171, 255])).writes = []
    ∧ unhex (bytesHex [0, 171, 255]) = some [0, 171, 255] :=
  blob_inline_roundtrip ⟨"t", "c", 0, 1, none, 10, false, "d.sql"⟩
    [0, 171, 255] (by decide) (by decide)

/-- C8: a string value is sanitized and then quote-doubled into a
single-quoted literal; when the source string contains a quote character the
emitted literal contains the doubled quote, and between its delimiters every
quote occurs doubled (no unescaped quote). -/
theorem str_value_quote_doubling (ctx : EncodeCtx) (colType : String)
    (s : String) (hq : squoteC ∈ s.data) :
    ∃ inner : List Char,
      (encodeValue ctx colType (PyValue.str s)).lit
          = sqS ++ String.mk inner ++ sqS
      ∧ inner = doubleQuotes (sanitize_sql_value s).data
      ∧ [squoteC, squoteC] <:+: inner
      ∧ quotesDoubled inner = true := by
  refine ⟨doubleQuotes (sanitize_sql_value s).data, rfl, rfl, ?_, ?_⟩
  · exact doubleQuotes_pair _ (squote_mem_sanitize hq)
  · exact quotesDoubled_doubleQuotes _

/-- Witness for `str_value_quote_doubling` on the string `it's` (quote
written by code point). -/
theorem str_value_quote_doubling_witness :
    ∃ inner : List Char,
      (encodeValue ⟨"t", "c", 0, 0, none, 10, false, "d.sql"⟩ "TEXT"
          (PyValue.str (String.mk [Char.ofNat 105, Char.ofNat 116, squoteC,
            Char.ofNat 115]))).lit
        = sqS ++ String.mk inner ++ sqS
      ∧ inner = doubleQuotes (sanitize_sql_value (String.mk [Char.ofNat 105,
          Char.ofNat 116, squoteC, Char.ofNat 115])).data
      ∧ [squoteC, squoteC] <:+: inner
      ∧ quotesDoubled inner = true :=
  str_value_quote_doubling ⟨"t", "c", 0, 0, none, 10, false, "d.sql"⟩ "TEXT"
    (String.mk [Char.ofNat 105, Char.ofNat 116, squoteC, Char.ofNat 115])
    (by decide)

/-- C4: a BLOB value over the inline threshold, with a (non-empty) external
blob directory configured, is written to exactly one external file whose
name is determined by the table name, column name, row offset and column
index, whose contents are byte-identical to the original value; the emitted
placeholder is a LOAD_FILE reference to that same path (stated here for the
absolute-path configuration; the relative-path option only rewrites the
reference, not the file). -/
theorem blob_external_write (ctx : EncodeCtx) (bs : List Nat) (dir : String)
    (hdir : ctx.blobDir = some dir) (hne : dir ≠ "")
    (hover : ctx.maxBlobSize < bs.length)
    (hrel : ctx.relativeBlobPaths = false) :
    (encodeValue ctx "BLOB" (PyValue.blob bs)).writes
        = [(pathJoin dir (blobFileName ctx.tableName ctx.colName
            ctx.rowOffset ctx.colIdx), bs)]
    ∧ (encodeValue ctx "BLOB" (PyValue.blob bs)).lit
        = "LOAD_FILE(" ++ sqS
          ++ pathJoin dir (blobFileName ctx.tableName ctx.colName
              ctx.rowOffset ctx.colIdx)
          ++ sqS ++ ")" := by
  constructor
  · simp [encodeValue, hdir, hne, hover]
  · simp [encodeValue, hdir, hne, hover, hrel]

/-- Witness for `blob_external_write`: table `t`, column `c`, offset 0,
column index 1, directory `bl`, threshold 3, five bytes. -/
theorem blob_external_write_witness :
    (encodeValue ⟨"t", "c", 0, 1, some "bl", 3, false, "out.sql"⟩ "BLOB"
        (PyValue.blob [1, 2, 3, 4, 5])).writes
      = [(pathJoin "bl" (blobFileName "t" "c" 0 1), [1, 2, 3, 4, 5])]
    ∧ (encodeValue ⟨"t", "c", 0, 1, some "bl", 3, false, "out.sql"⟩ "BLOB"
        (PyValue.blob [1, 2, 3, 4, 5])).lit
      = "LOAD_FILE(" ++ sqS ++ pathJoin "bl" (blobFileName "t" "c" 0 1)
        ++ sqS ++ ")" :=
  blob_external_write ⟨"t", "c", 0, 1, some "bl", 3, false, "out.sql"⟩
    [1, 2, 3, 4, 5] "bl" rfl (by decide) (by decide) rfl

/-! ## Column clause assembly (SQLtoMy.py lines 213-274): the declared-type
metadata gathered per column and the DEFAULT handling layered on top of the
type mapper's output. -/

/-- Per-column metadata dict of lines 225-232: upper-cased declared type,
nullability, primary-key flag, raw default text, and the observed statistics
(integers defaulting to 0, exactly as the caller initializes them). -/
structure ColumnMeta where
  ctype : String
  nullable : Bool
  isPrim : Bool
  defaultValue : Option String
  maxLength : Int
  maxValue : Int

/-- ASCII word character, the `\w` of the pattern at line 268 (Python also
admits non-ASCII word characters, which never occur in sanitized defaults
the converter meets). -/
def isWordChar (c : Char) : Bool := c.isAlphanum || c = '_'

/-- Python `re.match` of the anchored pattern word-chars, open paren,
anything, close paren (line 268): the dot does not cross newlines and the
end anchor also matches just before one trailing newline. -/
def matchesFuncCall (s : String) : Bool :=
  match s.data.takeWhile isWordChar, s.data.dropWhile isWordChar with
  | [], _ => false
  | _ :: _, c :: rest =>
    if c = '(' then
      let body := if rest.getLast? = some nlC then rest.dropLast else rest
      match body.getLast? with
      | some c2 => c2 == ')' && ! body.dropLast.contains nlC
      | none => false
    else false
  | _ :: _, [] => false

/-- SQLtoMy.py lines 256-274: the full column type clause.  The type mapper
runs first (appending DEFAULT NULL for nullable columns); then, when a
non-empty default text exists, a second DEFAULT clause is appended: the NULL
keyword verbatim, a sanitized quoted literal for TEXT/DATETIME/DATE columns
unless the text matches the function-call pattern (then skipped with a
warning), and the raw text unquoted for every other type. -/
def columnTypeClause (meta : ColumnMeta) : String :=
  let t := sqlite_to_mysql_type meta.ctype (some meta.maxLength)
    meta.nullable (some meta.maxValue) meta.isPrim
  match meta.defaultValue with
  | none => t
  | some dv =>
    if dv = "" then t
    else if pyUpper dv = "NULL" then t ++ " DEFAULT NULL"
    else if meta.ctype = "TEXT" ∨ meta.ctype = "DATETIME" ∨ meta.ctype = "DATE" then
      if matchesFuncCall (sanitize_sql_value dv) then t
      else t ++ (" DEFAULT " ++ (sqS ++ sanitize_sql_value dv ++ sqS))
    else t ++ (" DEFAULT " ++ dv)

/-- C10: a nullable column with a non-empty default text that is not the
NULL keyword and (for TEXT/DATETIME/DATE columns) does not match the
function-call pattern gets two DEFAULT clauses: the mapper's trailing
DEFAULT NULL followed by a second DEFAULT carrying the value. -/
theorem nullable_default_double_clause (meta : ColumnMeta) (dv : String)
    (hnul : meta.nullable = true) (hdv : meta.defaultValue = some dv)
    (hne : dv ≠ "") (hnn : pyUpper dv ≠ "NULL")
    (hfn : (meta.ctype = "TEXT" ∨ meta.ctype = "DATETIME" ∨ meta.ctype = "DATE") →
      matchesFuncCall (sanitize_sql_value dv) = false) :
    ∃ pre tail,
      columnTypeClause meta = (pre ++ " DEFAULT NULL") ++ (" DEFAULT " ++ tail)
      ∧ pre ++ " DEFAULT NULL"
          = sqlite_to_mysql_type meta.ctype (some meta.maxLength)
              meta.nullable (some meta.maxValue) meta.isPrim := by
  have hbase : sqlite_to_mysql_type meta.ctype (some meta.maxLength)
      meta.nullable (some meta.maxValue) meta.isPrim
      = sqliteToMysqlBase (pyUpper meta.ctype) (some meta.maxLength)
          (some meta.maxValue) meta.isPrim ++ " DEFAULT NULL" := by
    rw [sqlite_to_mysql_type, hnul]; rfl
  by_cases htxt : meta.ctype = "TEXT" ∨ meta.ctype = "DATETIME" ∨ meta.ctype = "DATE"
  · refine ⟨sqliteToMysqlBase (pyUpper meta.ctype) (some meta.maxLength)
      (some meta.maxValue) meta.isPrim, sqS ++ sanitize_sql_value dv ++ sqS, ?_, hbase.symm⟩
    rw [← hbase]
    simp [columnTypeClause, hdv, hne, hnn, htxt, hfn htxt]
  · refine ⟨sqliteToMysqlBase (pyUpper meta.ctype) (some meta.maxLength)
      (some meta.maxValue) meta.isPrim, dv, ?_, hbase.symm⟩
    rw [← hbase]
    simp [columnTypeClause, hdv, hne, hnn, htxt]

/-- Witness for `nullable_default_double_clause`: a nullable TEXT column with
default text `abc`. -/
theorem nullable_default_double_clause_witness :
    ∃ pre tail,
      columnTypeClause ⟨"TEXT", true, false, some "abc", 3, 0⟩
        = (pre ++ " DEFAULT NULL") ++ (" DEFAULT " ++ tail)
      ∧ pre ++ " DEFAULT NULL"
          = sqlite_to_mysql_type "TEXT" (some 3) true (some 0) false :=
  nullable_default_double_clause ⟨"TEXT", true, false, some "abc", 3, 0⟩
    "abc" rfl rfl (by decide) (by decide) (fun _ => by decide)

/-! ## Data-export paging (SQLtoMy.py lines 345-416): the `while offset <
total_rows` loop fetches `LIMIT batch_size OFFSET offset` pages and flushes
each page's value list as multi-row INSERTs in chunks of 100. -/

/-- Ceiling division on naturals. -/
def ceilNat (a b : Nat) : Nat := (a + b - 1) / b

/-- One run of the paging loop from a given offset, counting (fetches,
INSERT statements).  A fetch against an immutable table of `total` rows
returns `min batch (total - offset)` rows (lines 354-356); the flush of
lines 405-413 emits one INSERT per chunk of 100 buffered rows, i.e.
`ceilNat rowCount 100` statements, and clears the buffer.  The loop is
fueled; `dataPhaseCounts` supplies fuel exceeding every possible iteration
count (the offset strictly grows while below `total` whenever `batch ≥ 1`,
matching the termination of the Python loop). -/
def exportRowsLoop : Nat → Nat → Nat → Nat → Nat × Nat
  | 0, _, _, _ => (0, 0)
  | fuel + 1, total, batch, offset =>
    if offset < total then
      let rc := min batch (total - offset)
      let rest := exportRowsLoop fuel total batch (offset + rc)
      (rest.1 + 1, rest.2 + ceilNat rc 100)
    else (0, 0)

/-- The data phase of `create_sql_dump` for one table with `total` rows and
page size `batch`: fetch and INSERT counts of the loop started at offset 0. -/
def dataPhaseCounts (total batch : Nat) : Nat × Nat :=
  exportRowsLoop (total + 1) total batch 0

theorem exportRowsLoop_done (fuel total batch offset : Nat)
    (h : ¬ offset < total) : exportRowsLoop fuel total batch offset = (0, 0) := by
  cases fuel with
  | zero => rfl
  | succ f => simp [exportRowsLoop, h]

theorem ceilNat_sub_self (k batch : Nat) (hb : 1 ≤ batch) (hk : batch ≤ k) :
    ceilNat (k - batch) batch + 1 = ceilNat k batch := by
  show (k - batch + batch - 1) / batch + 1 = (k + batch - 1) / batch
  have h1 : k - batch + batch - 1 = k - 1 := by omega
  have h2 : k + batch - 1 = (k - 1) + batch := by omega
  rw [h1, h2, Nat.add_div_right _ (by omega)]

theorem ceilNat_one (k batch : Nat) (h1 : 1 ≤ k) (h2 : k ≤ batch) :
    ceilNat k batch = 1 := by
  show (k + batch - 1) / batch = 1
  have := Nat.div_eq_of_lt_le (by omega : 1 * batch ≤ k + batch - 1)
    (by omega : k + batch - 1 < (1 + 1) * batch)
  simpa using this

theorem exportRowsLoop_eq (fuel : Nat) : ∀ (total batch offset : Nat),
    1 ≤ batch → total - offset < fuel →
    exportRowsLoop fuel total batch offset =
      (ceilNat (total - offset) batch,
       (total - offset) / batch * ceilNat batch 100
         + ceilNat ((total - offset) % batch) 100) := by
  induction fuel with
  | zero => intro total batch offset _ hf; omega
  | succ fuel ih =>
    intro total batch offset hb hf
    by_cases hlt : offset < total
    · have hk1 : 1 ≤ total - offset := by omega
      rcases le_or_lt batch (total - offset) with hk | hk
      · -- full page: rc = batch
        have hrc : min batch (total - offset) = batch := Nat.min_eq_left hk
        have hoff : total - (offset + batch) = (total - offset) - batch := by omega
        have hrest := ih total batch (offset + batch) hb (by omega)
        simp only [exportRowsLoop, if_pos hlt, hrc, hrest, hoff]
        set m := total - offset - batch with hm
        have hsum : total - offset = m + batch := by omega
        simp only [Prod.mk.injEq]
        constructor
        · rw [hsum, ← ceilNat_sub_self (m + batch) batch hb (by omega)]
          simp
        · rw [hsum, Nat.add_div_right _ (by omega), Nat.add_mod_right, Nat.succ_mul]
          ring
      · -- final short page: rc = total - offset
        have hrc : min batch (total - offset) = total - offset :=
          Nat.min_eq_right (by omega)
        have hdone : ¬ offset + (total - offset) < total := by omega
        simp only [exportRowsLoop, if_pos hlt, hrc,
          exportRowsLoop_done fuel total batch _ hdone]
        have h1 : ceilNat (total - offset) batch = 1 := ceilNat_one _ _ hk1 (by omega)
        have h2 : (total - offset) / batch = 0 := Nat.div_eq_of_lt hk
        have h3 : (total - offset) % batch = total - offset := Nat.mod_eq_of_lt hk
        rw [h1, h2, h3]
        simp
    · have hz : total - offset = 0 := by omega
      rw [exportRowsLoop_done _ _ _ _ hlt, hz]
      show (0, 0) = ((0 + batch - 1) / batch, 0 / batch * ceilNat batch 100
        + ceilNat (0 % batch) 100)
      have : (0 + batch - 1) / batch = 0 := Nat.div_eq_of_lt (by omega)
      rw [this]
      simp [ceilNat]

/-- C3 counterexample: with R = 2 rows and page size B = 1, the code emits
one INSERT per page, so 2 INSERT statements, while ceil(R/C) with flush
chunk C = 100 is 1: the buffer is flushed and cleared at every page (line
413), so INSERT chunking never spans pages and the claimed ceil(R/C) total
fails whenever the page size is not a multiple of the chunk size. -/
theorem insert_count_counterexample :
    (dataPhaseCounts 2 1).2 = 2 ∧ ceilNat 2 100 = 1 ∧ (2 : Nat) ≠ 1 := by
  exact ⟨rfl, rfl, by decide⟩

/-- C3 amended: for R > 0 rows and page size B ≥ 1 the loop performs exactly
ceil(R/B) paging fetches; the number of INSERT statements is
(R / B) * ceil(B/C) + ceil((R mod B)/C) with C = 100, which collapses to the
claimed ceil(R/C) exactly when the page size is a multiple of the chunk size
(as with the default B = 1000) — the per-page flush otherwise emits more. -/
theorem data_export_counts (total batch : Nat) (ht : 0 < total)
    (hb : 1 ≤ batch) :
    (dataPhaseCounts total batch).1 = ceilNat total batch
    ∧ (dataPhaseCounts total batch).2
        = total / batch * ceilNat batch 100 + ceilNat (total % batch) 100
    ∧ (100 ∣ batch → (dataPhaseCounts total batch).2 = ceilNat total 100) := by
  have h := exportRowsLoop_eq (total + 1) total batch 0 hb (by omega)
  have h1 : (dataPhaseCounts total batch).1 = ceilNat total batch := by
    rw [dataPhaseCounts, h]; simp
  have h2 : (dataPhaseCounts total batch).2
      = total / batch * ceilNat batch 100 + ceilNat (total % batch) 100 := by
    rw [dataPhaseCounts, h]; simp
  refine ⟨h1, h2, fun hdvd => ?_⟩
  rcases hdvd with ⟨m, hm⟩
  have hm1 : 1 ≤ m := by omega
  have hcb : ceilNat batch 100 = m := by
    show (batch + 100 - 1) / 100 = m
    have : batch + 100 - 1 = 99 + 100 * m := by omega
    rw [this, Nat.add_mul_div_left _ _ (by omega : 0 < 100)]
    norm_num
  have hsplit : total = total % batch + 100 * (total / batch * m) := by
    have := Nat.div_add_mod total batch
    calc total = batch * (total / batch) + total % batch := by omega
    _ = total % batch + 100 * (total / batch * m) := by rw [hm]; ring
  have : ceilNat total 100 = total / batch * m + ceilNat (total % batch) 100 := by
    show (total + 100 - 1) / 100 = _
    have harr : total + 100 - 1 = (total % batch + 100 - 1) + 100 * (total / batch * m) := by
      omega
    rw [harr, Nat.add_mul_div_left _ _ (by omega : 0 < 100)]
    show (total % batch + 100 - 1) / 100 + total / batch * m
      = total / batch * m + (total % batch + 100 - 1) / 100
    ring
  rw [h2, hcb, this]

/-- Witness for `data_export_counts` at R = 250 rows and the 100-row page
size: 3 fetches and 3 INSERT statements, agreeing with ceil(R/C) since the
page size is a multiple of the chunk size. -/
theorem data_export_counts_witness :
    (dataPhaseCounts 250 100).1 = ceilNat 250 100
    ∧ (dataPhaseCounts 250 100).2 = ceilNat 250 100 :=
  ⟨(data_export_counts 250 100 (by decide) (by decide)).1,
   (data_export_counts 250 100 (by decide) (by decide)).2.2 ⟨1, by decide⟩⟩

/-! ## Dependency resolver (SQLtoMy.py lines 54-84,
`topological_sort_tables`).  The Python builds `graph[ref].append(dep)` and
`in_degree[dep] += 1` for every foreign key, seeds a FIFO queue with the
zero-in-degree tables in catalog order, pops and appends to the output while
decrementing neighbours (enqueueing those that reach zero), and finally
appends any table still missing (a cycle, or a starved dependency) in
catalog order.  The write-only `visited` set of the source is omitted.  The
`while queue` loop is modelled with fuel strictly larger than any possible
number of iterations (each table and each edge-triggered enqueue pops at
most once; `kahnLoop_queue_empty` below proves the queue is exhausted). -/

/-- One row of `PRAGMA foreign_key_list`, restricted to the components the
converter reads: index 2 (referenced table), 3 (child column), 4 (referenced
column) and the two action strings of indexes 5 and 6.  Only the referenced
table participates in the sort. -/
structure FKRow where
  refTable : String
  fromCol : String
  toCol : String
  actionA : String
  actionB : String

/-- The dependency edges in iteration order: one `(dependent, referenced)`
pair per foreign key of each catalog entry. -/
def fkEdges (fks : List (String × List FKRow)) : List (String × String) :=
  fks.flatMap (fun p => p.2.map (fun fk => (p.1, fk.refTable)))

/-- `in_degree[x]` as initialized by lines 58-65: the number of foreign-key
edges whose dependent is `x`. -/
def deg0N (edges : List (String × String)) (x : String) : Nat :=
  (edges.filter (fun e => e.1 = x)).length

/-- `graph[r]`: the dependents of `r`, in edge order (lines 61-64). -/
def graphOf (edges : List (String × String)) (r : String) : List String :=
  (edges.filter (fun e => e.2 = r)).map (fun e => e.1)

/-- Number of edges out of `x` whose referenced table is already emitted:
the decrements `x` has received once every table of `S` has been popped. -/
def consumedCnt (edges : List (String × String)) (S : List String)
    (x : String) : Nat :=
  (edges.filter (fun e => e.1 = x ∧ e.2 ∈ S)).length

/-- Number of edges from `x` to `t`. -/
def edgeCnt (edges : List (String × String)) (x t : String) : Nat :=
  (edges.filter (fun e => e.1 = x ∧ e.2 = t)).length

/-- State of the Kahn loop: the mutable in-degree map (Python ints may go
negative on cyclic inputs, hence `Int`), the FIFO queue, and the output. -/
structure KState where
  deg : String → Int
  queue : List String
  sortedT : List String

/-- Lines 75-78: decrement each neighbour in order, enqueueing any that
reaches exactly zero. -/
def stepNeighbors : (String → Int) → List String → List String →
    (String → Int) × List String
  | deg, q, [] => (deg, q)
  | deg, q, n :: ns =>
    let v := deg n - 1
    let deg2 := Function.update deg n v
    if v = 0 then stepNeighbors deg2 (q ++ [n]) ns
    else stepNeighbors deg2 q ns

/-- Lines 71-78: the `while queue` loop, fueled. -/
def kahnLoop (graph : String → List String) : Nat → KState → KState
  | 0, s => s
  | fuel + 1, s =>
    match s.queue with
    | [] => s
    | t :: rest =>
      let p := stepNeighbors s.deg rest (graph t)
      kahnLoop graph fuel ⟨p.1, p.2, s.sortedT ++ [t]⟩

/-- Lines 54-67: initial state, with the queue seeded by the zero-in-degree
tables in catalog order. -/
def kahnInit (tables : List String) (edges : List (String × String)) : KState :=
  ⟨fun x => (deg0N edges x : Int),
   tables.filter (fun t => (deg0N edges t : Int) = 0), []⟩

/-- The loop run to completion (fuel exceeds every possible pop count). -/
def kahnRun (tables : List String) (edges : List (String × String)) : KState :=
  kahnLoop (graphOf edges) (tables.length + edges.length + 1)
    (kahnInit tables edges)

/-- SQLtoMy.py lines 54-84: the dependency resolver.  When the loop emitted
fewer tables than the catalog holds (line 80), the missing ones are appended
in catalog order and the run continues with a warning. -/
def topological_sort_tables (tables : List String)
    (fks : List (String × List FKRow)) : List String :=
  let final := kahnRun tables (fkEdges fks)
  if final.sortedT.length ≠ tables.length then
    final.sortedT ++ tables.filter (fun x => x ∉ final.sortedT)
  else final.sortedT

example : topological_sort_tables ["b", "a"]
    [("b", [⟨"a", "c", "d", "", ""⟩])] = ["a", "b"] := by decide

example : topological_sort_tables ["a", "b"]
    [("a", [⟨"b", "c", "d", "", ""⟩]), ("b", [⟨"a", "c", "d", "", ""⟩])]
    = ["a", "b"] := by decide

example : topological_sort_tables ["b", "a"]
    [("b", [⟨"a", "c", "d", "", ""⟩]), ("a", [⟨"x", "c", "d", "", ""⟩])]
    = ["b", "a"] := by decide

/-! ## Counting lemmas for the resolver's bookkeeping. -/

/-- Edges whose referenced table is not yet emitted. -/
def unconsumedCnt (edges : List (String × String)) (S : List String) : Nat :=
  (edges.filter (fun e => e.2 ∉ S)).length

/-- Edges referencing `t`. -/
def toCnt (edges : List (String × String)) (t : String) : Nat :=
  (edges.filter (fun e => e.2 = t)).length

theorem consumedCnt_cons (e : String × String) (es : List (String × String))
    (S : List String) (x : String) :
    consumedCnt (e :: es) S x
      = consumedCnt es S x + (if e.1 = x ∧ e.2 ∈ S then 1 else 0) := by
  by_cases h : e.1 = x ∧ e.2 ∈ S
  · simp [consumedCnt, List.filter_cons, h]
  · simp [consumedCnt, List.filter_cons, h]

theorem deg0N_cons (e : String × String) (es : List (String × String))
    (x : String) :
    deg0N (e :: es) x = deg0N es x + (if e.1 = x then 1 else 0) := by
  by_cases h : e.1 = x
  · simp [deg0N, List.filter_cons, h]
  · simp [deg0N, List.filter_cons, h]

theorem edgeCnt_cons (e : String × String) (es : List (String × String))
    (x t : String) :
    edgeCnt (e :: es) x t
      = edgeCnt es x t + (if e.1 = x ∧ e.2 = t then 1 else 0) := by
  by_cases h : e.1 = x ∧ e.2 = t
  · simp [edgeCnt, List.filter_cons, h]
  · simp [edgeCnt, List.filter_cons, h]

theorem unconsumedCnt_cons (e : String × String) (es : List (String × String))
    (S : List String) :
    unconsumedCnt (e :: es) S
      = unconsumedCnt es S + (if e.2 ∈ S then 0 else 1) := by
  by_cases h : e.2 ∈ S
  · simp [unconsumedCnt, List.filter_cons, h]
  · simp [unconsumedCnt, List.filter_cons, h]

theorem toCnt_cons (e : String × String) (es : List (String × String))
    (t : String) :
    toCnt (e :: es) t = toCnt es t + (if e.2 = t then 1 else 0) := by
  by_cases h : e.2 = t
  · simp [toCnt, List.filter_cons, h]
  · simp [toCnt, List.filter_cons, h]

theorem consumedCnt_nil2 (edges : List (String × String)) (x : String) :
    consumedCnt edges [] x = 0 := by
  induction edges with
  | nil => rfl
  | cons e es ih => rw [consumedCnt_cons, ih]; simp

theorem consumedCnt_le (edges : List (String × String)) (S : List String)
    (x : String) : consumedCnt edges S x ≤ deg0N edges x := by
  induction edges with
  | nil => exact Nat.le_refl _
  | cons e es ih =>
    rw [consumedCnt_cons, deg0N_cons]
    by_cases h1 : e.1 = x
    · by_cases h2 : e.2 ∈ S
      · simp only [if_pos (And.intro h1 h2), if_pos h1]; omega
      · have : ¬ (e.1 = x ∧ e.2 ∈ S) := fun hc => h2 hc.2
        simp only [if_neg this, if_pos h1]; omega
    · have : ¬ (e.1 = x ∧ e.2 ∈ S) := fun hc => h1 hc.1
      simp only [if_neg this, if_neg h1]; omega

theorem consumedCnt_eq_all (edges : List (String × String)) (S : List String)
    (x : String) (h : consumedCnt edges S x = deg0N edges x) :
    ∀ e ∈ edges, e.1 = x → e.2 ∈ S := by
  induction edges with
  | nil => intro e he; cases he
  | cons e es ih =>
    intro f hf hf1
    rw [consumedCnt_cons, deg0N_cons] at h
    have hle := consumedCnt_le es S x
    rcases List.mem_cons.mp hf with rfl | hft
    · by_contra hns
      have : ¬ (f.1 = x ∧ f.2 ∈ S) := fun hc => hns hc.2
      rw [if_neg this, if_pos hf1] at h
      omega
    · refine ih ?_ f hft hf1
      by_cases h1 : e.1 = x
      · by_cases h2 : e.2 ∈ S
        · rw [if_pos (And.intro h1 h2), if_pos h1] at h; omega
        · have : ¬ (e.1 = x ∧ e.2 ∈ S) := fun hc => h2 hc.2
          rw [if_neg this, if_pos h1] at h; omega
      · have : ¬ (e.1 = x ∧ e.2 ∈ S) := fun hc => h1 hc.1
        rw [if_neg this, if_neg h1] at h; omega

theorem consumedCnt_append (edges : List (String × String)) (S : List String)
    (t x : String) (htS : t ∉ S) :
    consumedCnt edges (S ++ [t]) x
      = consumedCnt edges S x + edgeCnt edges x t := by
  induction edges with
  | nil => rfl
  | cons e es ih =>
    rw [consumedCnt_cons, consumedCnt_cons, edgeCnt_cons, ih]
    by_cases h1 : e.1 = x
    · by_cases h2 : e.2 ∈ S
      · have h3 : ¬ (e.1 = x ∧ e.2 = t) := fun hc => htS (hc.2 ▸ h2)
        have h4 : e.2 ∈ S ++ [t] := List.mem_append_left _ h2
        rw [if_pos (And.intro h1 h4), if_pos (And.intro h1 h2), if_neg h3]
        omega
      · by_cases h3 : e.2 = t
        · have h4 : e.2 ∈ S ++ [t] := by
            subst h3; exact List.mem_append_right _ (List.mem_singleton_self _)
          have h5 : ¬ (e.1 = x ∧ e.2 ∈ S) := fun hc => h2 hc.2
          rw [if_pos (And.intro h1 h4), if_neg h5, if_pos (And.intro h1 h3)]
          omega
        · have h4 : e.2 ∉ S ++ [t] := by
            intro hm
            rcases List.mem_append.mp hm with hm | hm
            · exact h2 hm
            · exact h3 (List.mem_singleton.mp hm)
          have h5 : ¬ (e.1 = x ∧ e.2 ∈ S ++ [t]) := fun hc => h4 hc.2
          have h6 : ¬ (e.1 = x ∧ e.2 ∈ S) := fun hc => h2 hc.2
          have h7 : ¬ (e.1 = x ∧ e.2 = t) := fun hc => h3 hc.2
          rw [if_neg h5, if_neg h6, if_neg h7]
          omega
    · have h5 : ¬ (e.1 = x ∧ e.2 ∈ S ++ [t]) := fun hc => h1 hc.1
      have h6 : ¬ (e.1 = x ∧ e.2 ∈ S) := fun hc => h1 hc.1
      have h7 : ¬ (e.1 = x ∧ e.2 = t) := fun hc => h1 hc.1
      rw [if_neg h5, if_neg h6, if_neg h7]
      omega

theorem count_graphOf (edges : List (String × String)) (t x : String) :
    (graphOf edges t).count x = edgeCnt edges x t := by
  induction edges with
  | nil => rfl
  | cons e es ih =>
    rw [edgeCnt_cons]
    by_cases h2 : e.2 = t
    · have hg : graphOf (e :: es) t = e.1 :: graphOf es t := by
        simp [graphOf, List.filter_cons, h2]
      rw [hg, List.count_cons, ih]
      by_cases h1 : e.1 = x
      · rw [if_pos (And.intro h1 h2)]
        simp [h1]
      · have : ¬ (e.1 = x ∧ e.2 = t) := fun hc => h1 hc.1
        rw [if_neg this]
        simp [h1]
    · have hg : graphOf (e :: es) t = graphOf es t := by
        simp [graphOf, List.filter_cons, h2]
      have : ¬ (e.1 = x ∧ e.2 = t) := fun hc => h2 hc.2
      rw [hg, ih, if_neg this]
      omega

theorem edgeCnt_add_le (edges : List (String × String)) (S : List String)
    (x t : String) (htS : t ∉ S) :
    consumedCnt edges S x + edgeCnt edges x t ≤ deg0N edges x := by
  induction edges with
  | nil => exact Nat.le_refl _
  | cons e es ih =>
    rw [consumedCnt_cons, edgeCnt_cons, deg0N_cons]
    by_cases h1 : e.1 = x
    · by_cases h2 : e.2 ∈ S
      · have h3 : ¬ (e.1 = x ∧ e.2 = t) := fun hc => htS (hc.2 ▸ h2)
        rw [if_pos (And.intro h1 h2), if_neg h3, if_pos h1]; omega
      · have h5 : ¬ (e.1 = x ∧ e.2 ∈ S) := fun hc => h2 hc.2
        by_cases h3 : e.2 = t
        · rw [if_neg h5, if_pos (And.intro h1 h3), if_pos h1]; omega
        · have h7 : ¬ (e.1 = x ∧ e.2 = t) := fun hc => h3 hc.2
          rw [if_neg h5, if_neg h7, if_pos h1]; omega
    · have h5 : ¬ (e.1 = x ∧ e.2 ∈ S) := fun hc => h1 hc.1
      have h7 : ¬ (e.1 = x ∧ e.2 = t) := fun hc => h1 hc.1
      rw [if_neg h5, if_neg h7, if_neg h1]; omega

theorem consumedCnt_lt (edges : List (String × String)) (S : List String)
    (x : String) (h : consumedCnt edges S x < deg0N edges x) :
    ∃ e ∈ edges, e.1 = x ∧ e.2 ∉ S := by
  induction edges with
  | nil => exact absurd h (by simp [consumedCnt, deg0N])
  | cons e es ih =>
    rw [consumedCnt_cons, deg0N_cons] at h
    by_cases h1 : e.1 = x
    · by_cases h2 : e.2 ∈ S
      · rw [if_pos (And.intro h1 h2), if_pos h1] at h
        obtain ⟨f, hf, hf1, hf2⟩ := ih (by omega)
        exact ⟨f, List.mem_cons_of_mem _ hf, hf1, hf2⟩
      · exact ⟨e, List.mem_cons_self _ _, h1, h2⟩
    · have h5 : ¬ (e.1 = x ∧ e.2 ∈ S) := fun hc => h1 hc.1
      rw [if_neg h5, if_neg h1] at h
      obtain ⟨f, hf, hf1, hf2⟩ := ih (by omega)
      exact ⟨f, List.mem_cons_of_mem _ hf, hf1, hf2⟩

theorem unconsumed_split (edges : List (String × String)) (S : List String)
    (t : String) (htS : t ∉ S) :
    unconsumedCnt edges S = unconsumedCnt edges (S ++ [t]) + toCnt edges t := by
  induction edges with
  | nil => rfl
  | cons e es ih =>
    rw [unconsumedCnt_cons, unconsumedCnt_cons, toCnt_cons, ih]
    by_cases h2 : e.2 = t
    · have hns : e.2 ∉ S := h2 ▸ htS
      have hm : e.2 ∈ S ++ [t] := by
        subst h2; exact List.mem_append_right _ (List.mem_singleton_self _)
      rw [if_neg hns, if_pos hm, if_pos h2]
      omega
    · by_cases h3 : e.2 ∈ S
      · have hm : e.2 ∈ S ++ [t] := List.mem_append_left _ h3
        rw [if_pos h3, if_pos hm, if_neg h2]
        omega
      · have hm : e.2 ∉ S ++ [t] := by
          intro hmm
          rcases List.mem_append.mp hmm with hmm | hmm
          · exact h3 hmm
          · exact h2 (List.mem_singleton.mp hmm)
        rw [if_neg h3, if_neg hm, if_neg h2]
        omega

theorem length_graphOf (edges : List (String × String)) (t : String) :
    (graphOf edges t).length = toCnt edges t := by
  simp [graphOf, toCnt]

theorem indexOf_append_left {y : String} (S l : List String) (h : y ∈ S) :
    (S ++ l).indexOf y = S.indexOf y := by
  induction S with
  | nil => cases h
  | cons a S ih =>
    by_cases hay : a = y
    · simp [List.indexOf_cons_eq _ hay]
    · have hy : y ∈ S := by
        rcases List.mem_cons.mp h with rfl | h'
        · exact absurd rfl hay
        · exact h'
      simp only [List.cons_append, List.indexOf_cons_ne _ hay, ih hy]

theorem indexOf_append_self (S : List String) (t : String) (h : t ∉ S) :
    (S ++ [t]).indexOf t = S.length := by
  induction S with
  | nil => simp [List.indexOf_cons_eq]
  | cons a S ih =>
    have hat : a ≠ t := fun hh => h (hh ▸ List.mem_cons_self _ _)
    have h' : t ∉ S := fun hh => h (List.mem_cons_of_mem _ hh)
    simp only [List.cons_append, List.indexOf_cons_ne _ hat, ih h',
      List.length_cons]

theorem mem_graphOf {edges : List (String × String)} {t x : String}
    (h : x ∈ graphOf edges t) : ∃ e ∈ edges, e.1 = x ∧ e.2 = t := by
  simp only [graphOf, List.mem_map, List.mem_filter] at h
  obtain ⟨e, ⟨he, he2⟩, he1⟩ := h
  exact ⟨e, he, he1, by simpa using he2⟩

/-! ## Invariants of the Kahn loop. -/

theorem stepNeighbors_queue_sub :
    ∀ (ns : List String) (deg : String → Int) (q : List String),
    ∃ app, (stepNeighbors deg q ns).2 = q ++ app ∧ app.length ≤ ns.length
      ∧ ∀ x ∈ app, x ∈ ns := by
  intro ns
  induction ns with
  | nil =>
    intro deg q
    exact ⟨[], by simp [stepNeighbors], by simp, by simp⟩
  | cons n ns ih =>
    intro deg q
    by_cases hv : deg n - 1 = 0
    · have hstep : stepNeighbors deg q (n :: ns)
          = stepNeighbors (Function.update deg n (deg n - 1)) (q ++ [n]) ns := by
        simp only [stepNeighbors]
        rw [if_pos hv]
      obtain ⟨app, happ, hlen, hmem⟩ :=
        ih (Function.update deg n (deg n - 1)) (q ++ [n])
      refine ⟨n :: app, ?_, ?_, ?_⟩
      · rw [hstep, happ, List.append_assoc, List.singleton_append]
      · simpa using Nat.succ_le_succ hlen
      · intro x hx
        rcases List.mem_cons.mp hx with rfl | hx
        · exact List.mem_cons_self _ _
        · exact List.mem_cons_of_mem _ (hmem x hx)
    · have hstep : stepNeighbors deg q (n :: ns)
          = stepNeighbors (Function.update deg n (deg n - 1)) q ns := by
        simp only [stepNeighbors]
        rw [if_neg hv]
      obtain ⟨app, happ, hlen, hmem⟩ :=
        ih (Function.update deg n (deg n - 1)) q
      refine ⟨app, by rw [hstep, happ], Nat.le_succ_of_le hlen, ?_⟩
      exact fun x hx => List.mem_cons_of_mem _ (hmem x hx)

/-- Invariant of the inner neighbour-decrement loop while popping `t`: `S` is
the output before the pop, `done` the neighbours already decremented.  The
queue holds exactly the not-yet-popped tables of in-degree zero; tables
already emitted (and `t` itself) sit at or below zero and stay there. -/
structure MidInv (edges : List (String × String)) (tables : List String)
    (S : List String) (t : String) (done : List String)
    (deg : String → Int) (q : List String) : Prop where
  degEq : ∀ x, deg x
    = (deg0N edges x : Int) - consumedCnt edges S x - done.count x
  nodupQ : q.Nodup
  qNotS : ∀ x ∈ q, x ∉ S ∧ x ≠ t
  qZero : ∀ x ∈ q, deg x = 0
  sNonpos : ∀ x ∈ S, deg x ≤ 0
  tNonpos : deg t ≤ 0
  zeroLoc : ∀ x ∈ tables, deg x = 0 → x ∈ q ∨ x ∈ S ∨ x = t

theorem stepNeighbors_spec (edges : List (String × String))
    (tables : List String) (S : List String) (t : String) (htS : t ∉ S) :
    ∀ (ns done : List String) (deg : String → Int) (q : List String),
    graphOf edges t = done ++ ns →
    MidInv edges tables S t done deg q →
    MidInv edges tables S t (done ++ ns)
      (stepNeighbors deg q ns).1 (stepNeighbors deg q ns).2 := by
  intro ns
  induction ns with
  | nil =>
    intro done deg q _ m
    simpa [stepNeighbors] using m
  | cons n ns ih =>
    intro done deg q hsplit m
    -- the current neighbour cannot be sitting in the queue: its in-degree
    -- would have to be zero although the edge n -> t is not yet consumed
    have hnq : n ∉ q := by
      intro hmem
      have h0 := m.qZero n hmem
      have hdeg := m.degEq n
      have hle := edgeCnt_add_le edges S n t htS
      have hcnt : edgeCnt edges n t = (done ++ n :: ns).count n := by
        rw [← hsplit, count_graphOf]
      have hge : (done ++ n :: ns).count n ≥ done.count n + 1 := by
        rw [List.count_append, List.count_cons_self]
        omega
      omega
    have hdeg2 : ∀ x, Function.update deg n (deg n - 1) x
        = (deg0N edges x : Int) - consumedCnt edges S x
          - (done ++ [n]).count x := by
      intro x
      by_cases hx : x = n
      · subst hx
        rw [Function.update_same, m.degEq x, List.count_append,
          List.count_cons_self, List.count_nil]
        push_cast
        ring
      · rw [Function.update_noteq hx, m.degEq x, List.count_append]
        have : List.count x [n] = 0 := by
          simp [List.count_singleton']
          exact fun h => hx (by simpa using h.symm)
        rw [this]
        push_cast
        ring
    have hmono : ∀ x, Function.update deg n (deg n - 1) x ≤ deg x := by
      intro x
      by_cases hx : x = n
      · subst hx; rw [Function.update_same]; omega
      · rw [Function.update_noteq hx]
    have hdone : done ++ n :: ns = (done ++ [n]) ++ ns := by simp
    by_cases hv : deg n - 1 = 0
    · -- the neighbour reaches zero and is enqueued
      have hstep : stepNeighbors deg q (n :: ns)
          = stepNeighbors (Function.update deg n (deg n - 1)) (q ++ [n]) ns := by
        simp only [stepNeighbors]
        rw [if_pos hv]
      have hnS : n ∉ S := by
        intro hmem
        have := m.sNonpos n hmem
        omega
      have hnt : n ≠ t := by
        intro hmem
        have := m.tNonpos
        rw [hmem] at hv
        omega
      have mid : MidInv edges tables S t (done ++ [n])
          (Function.update deg n (deg n - 1)) (q ++ [n]) := by
        refine ⟨hdeg2, ?_, ?_, ?_, ?_, ?_, ?_⟩
        · simp [List.nodup_append, m.nodupQ, hnq]
        · intro x hx
          rcases List.mem_append.mp hx with hx | hx
          · exact m.qNotS x hx
          · rw [List.mem_singleton.mp hx]; exact ⟨hnS, hnt⟩
        · intro x hx
          rcases List.mem_append.mp hx with hx | hx
          · have hxn : x ≠ n := fun h => hnq (h ▸ hx)
            rw [Function.update_noteq hxn]
            exact m.qZero x hx
          · rw [List.mem_singleton.mp hx, Function.update_same]
            exact hv
        · exact fun x hx => le_trans (hmono x) (m.sNonpos x hx)
        · exact le_trans (hmono t) m.tNonpos
        · intro x hx h0
          by_cases hxn : x = n
          · subst hxn
            exact Or.inl (List.mem_append_right _ (List.mem_singleton_self _))
          · rw [Function.update_noteq hxn] at h0
            rcases m.zeroLoc x hx h0 with h | h | h
            · exact Or.inl (List.mem_append_left _ h)
            · exact Or.inr (Or.inl h)
            · exact Or.inr (Or.inr h)
      have := ih (done ++ [n]) (Function.update deg n (deg n - 1)) (q ++ [n])
        (by rw [hsplit, hdone]) mid
      rw [hstep, hdone]
      exact this
    · -- the neighbour stays nonzero: nothing is enqueued
      have hstep : stepNeighbors deg q (n :: ns)
          = stepNeighbors (Function.update deg n (deg n - 1)) q ns := by
        simp only [stepNeighbors]
        rw [if_neg hv]
      have mid : MidInv edges tables S t (done ++ [n])
          (Function.update deg n (deg n - 1)) q := by
        refine ⟨hdeg2, m.nodupQ, m.qNotS, ?_, ?_, ?_, ?_⟩
        · intro x hx
          have hxn : x ≠ n := fun h => hnq (h ▸ hx)
          rw [Function.update_noteq hxn]
          exact m.qZero x hx
        · exact fun x hx => le_trans (hmono x) (m.sNonpos x hx)
        · exact le_trans (hmono t) m.tNonpos
        · intro x hx h0
          by_cases hxn : x = n
          · subst hxn
            rw [Function.update_same] at h0
            exact absurd h0 hv
          · rw [Function.update_noteq hxn] at h0
            exact m.zeroLoc x hx h0
      have := ih (done ++ [n]) (Function.update deg n (deg n - 1)) q
        (by rw [hsplit, hdone]) mid
      rw [hstep, hdone]
      exact this

/-- Invariant of the outer Kahn loop: the output is duplicate-free and
edge-ordered, the queue holds exactly the pending zero-in-degree nodes, and
the in-degree map equals the initial degrees minus the consumed edges. -/
structure KInv (edges : List (String × String)) (tables : List String)
    (s : KState) : Prop where
  nodupS : s.sortedT.Nodup
  nodupQ : s.queue.Nodup
  disjQS : ∀ x ∈ s.queue, x ∉ s.sortedT
  degEq : ∀ x, s.deg x
    = (deg0N edges x : Int) - consumedCnt edges s.sortedT x
  qZero : ∀ x ∈ s.queue, s.deg x = 0
  sNonpos : ∀ x ∈ s.sortedT, s.deg x ≤ 0
  zeroLoc : ∀ x ∈ tables, s.deg x = 0 → x ∈ s.queue ∨ x ∈ s.sortedT
  ordered : ∀ x ∈ s.sortedT, ∀ e ∈ edges, e.1 = x →
    e.2 ∈ s.sortedT ∧ s.sortedT.indexOf e.2 < s.sortedT.indexOf x

theorem kahnStep_inv (edges : List (String × String)) (tables : List String)
    (s : KState) (inv : KInv edges tables s) (t : String) (rest : List String)
    (hq : s.queue = t :: rest) :
    KInv edges tables
      ⟨(stepNeighbors s.deg rest (graphOf edges t)).1,
       (stepNeighbors s.deg rest (graphOf edges t)).2,
       s.sortedT ++ [t]⟩ := by
  have htq : t ∈ s.queue := by rw [hq]; exact List.mem_cons_self _ _
  have htS : t ∉ s.sortedT := inv.disjQS t htq
  have hdegt : s.deg t = 0 := inv.qZero t htq
  have hconsT : consumedCnt edges s.sortedT t = deg0N edges t := by
    have := inv.degEq t
    omega
  have hrestN : rest.Nodup := by
    have := inv.nodupQ
    rw [hq] at this
    exact (List.nodup_cons.mp this).2
  have htrest : t ∉ rest := by
    have := inv.nodupQ
    rw [hq] at this
    exact (List.nodup_cons.mp this).1
  have mid0 : MidInv edges tables s.sortedT t [] s.deg rest := by
    refine ⟨?_, hrestN, ?_, ?_, inv.sNonpos, le_of_eq hdegt, ?_⟩
    · intro x
      rw [inv.degEq x, List.count_nil]
      push_cast
      ring
    · intro x hx
      have hxq : x ∈ s.queue := by rw [hq]; exact List.mem_cons_of_mem _ hx
      exact ⟨inv.disjQS x hxq, fun h => htrest (h ▸ hx)⟩
    · intro x hx
      exact inv.qZero x (by rw [hq]; exact List.mem_cons_of_mem _ hx)
    · intro x hx h0
      rcases inv.zeroLoc x hx h0 with h | h
      · rw [hq] at h
        rcases List.mem_cons.mp h with h | h
        · exact Or.inr (Or.inr h)
        · exact Or.inl h
      · exact Or.inr (Or.inl h)
  have mid := stepNeighbors_spec edges tables s.sortedT t htS
    (graphOf edges t) [] s.deg rest (List.nil_append _).symm mid0
  rw [List.nil_append] at mid
  have hdegF : ∀ x, (stepNeighbors s.deg rest (graphOf edges t)).1 x
      = (deg0N edges x : Int)
        - consumedCnt edges (s.sortedT ++ [t]) x := by
    intro x
    have h1 := mid.degEq x
    rw [count_graphOf] at h1
    rw [h1, consumedCnt_append edges s.sortedT t x htS]
    push_cast
    ring
  refine ⟨?_, mid.nodupQ, ?_, hdegF, mid.qZero, ?_, ?_, ?_⟩
  · exact List.Nodup.append inv.nodupS (List.nodup_singleton t)
      (by simpa using htS)
  · intro x hx
    obtain ⟨hxS, hxt⟩ := mid.qNotS x hx
    intro hm
    rcases List.mem_append.mp hm with hm | hm
    · exact hxS hm
    · exact hxt (List.mem_singleton.mp hm)
  · intro x hx
    rcases List.mem_append.mp hx with hx | hx
    · exact mid.sNonpos x hx
    · rw [List.mem_singleton.mp hx]
      exact mid.tNonpos
  · intro x hx h0
    rcases mid.zeroLoc x hx h0 with h | h | h
    · exact Or.inl h
    · exact Or.inr (List.mem_append_left _ h)
    · exact Or.inr (List.mem_append_right _ (by rw [h]; exact List.mem_singleton_self _))
  · intro x hx e he he1
    rcases List.mem_append.mp hx with hx | hx
    · obtain ⟨h2, hidx⟩ := inv.ordered x hx e he he1
      refine ⟨List.mem_append_left _ h2, ?_⟩
      rw [indexOf_append_left _ _ h2, indexOf_append_left _ _ hx]
      exact hidx
    · have hxt : x = t := List.mem_singleton.mp hx
      subst hxt
      have h2 : e.2 ∈ s.sortedT :=
        consumedCnt_eq_all edges s.sortedT x hconsT e he he1
      refine ⟨List.mem_append_left _ h2, ?_⟩
      rw [indexOf_append_left _ _ h2, indexOf_append_self _ _ htS]
      exact List.indexOf_lt_length.mpr h2

theorem kahnLoop_inv (edges : List (String × String)) (tables : List String) :
    ∀ (fuel : Nat) (s : KState), KInv edges tables s →
    KInv edges tables (kahnLoop (graphOf edges) fuel s) := by
  intro fuel
  induction fuel with
  | zero => intro s inv; simpa [kahnLoop] using inv
  | succ fuel ih =>
    intro s inv
    cases hq : s.queue with
    | nil => simpa [kahnLoop, hq] using inv
    | cons t rest =>
      have h1 := kahnStep_inv edges tables s inv t rest hq
      have h2 := ih _ h1
      simpa [kahnLoop, hq] using h2

/-- Termination potential: pending queue entries plus unconsumed edges.  It
strictly decreases at every pop, so fuel exceeding the initial potential
exhausts the queue. -/
def phiK (edges : List (String × String)) (s : KState) : Nat :=
  s.queue.length + unconsumedCnt edges s.sortedT

theorem kahnLoop_queue_empty (edges : List (String × String))
    (tables : List String) :
    ∀ (fuel : Nat) (s : KState), KInv edges tables s → phiK edges s < fuel →
    (kahnLoop (graphOf edges) fuel s).queue = [] := by
  intro fuel
  induction fuel with
  | zero => intro s _ h; omega
  | succ fuel ih =>
    intro s inv hphi
    cases hq : s.queue with
    | nil => simp [kahnLoop, hq]
    | cons t rest =>
      have htS : t ∉ s.sortedT :=
        inv.disjQS t (by rw [hq]; exact List.mem_cons_self _ _)
      obtain ⟨app, happ, hlen, -⟩ :=
        stepNeighbors_queue_sub (graphOf edges t) s.deg rest
      have hsplit := unconsumed_split edges s.sortedT t htS
      have hlg := length_graphOf edges t
      have h1 := kahnStep_inv edges tables s inv t rest hq
      have hphi' : phiK edges
          ⟨(stepNeighbors s.deg rest (graphOf edges t)).1,
           (stepNeighbors s.deg rest (graphOf edges t)).2,
           s.sortedT ++ [t]⟩ < fuel := by
        have hql : (stepNeighbors s.deg rest (graphOf edges t)).2.length
            = rest.length + app.length := by
          rw [happ, List.length_append]
        have hold : phiK edges s
            = rest.length + 1 + unconsumedCnt edges s.sortedT := by
          simp [phiK, hq]
        simp only [phiK] at *
        omega
      have h2 := ih _ h1 hphi'
      simpa [kahnLoop, hq] using h2

theorem kahnLoop_mem (edges : List (String × String)) (tables : List String)
    (hkeys : ∀ e ∈ edges, e.1 ∈ tables) :
    ∀ (fuel : Nat) (s : KState),
    (∀ x ∈ s.queue, x ∈ tables) → (∀ x ∈ s.sortedT, x ∈ tables) →
    ∀ x ∈ (kahnLoop (graphOf edges) fuel s).sortedT, x ∈ tables := by
  intro fuel
  induction fuel with
  | zero => intro s _ hS; simpa [kahnLoop]
  | succ fuel ih =>
    intro s hQ hS
    cases hq : s.queue with
    | nil => simpa [kahnLoop, hq] using hS
    | cons t rest =>
      have htT : t ∈ tables := hQ t (by rw [hq]; exact List.mem_cons_self _ _)
      obtain ⟨app, happ, -, hmem⟩ :=
        stepNeighbors_queue_sub (graphOf edges t) s.deg rest
      have hQ' : ∀ x ∈ (stepNeighbors s.deg rest (graphOf edges t)).2,
          x ∈ tables := by
        intro x hx
        rw [happ] at hx
        rcases List.mem_append.mp hx with hx | hx
        · exact hQ x (by rw [hq]; exact List.mem_cons_of_mem _ hx)
        · obtain ⟨e, he, he1, -⟩ := mem_graphOf (hmem x hx)
          exact he1 ▸ hkeys e he
      have hS' : ∀ x ∈ s.sortedT ++ [t], x ∈ tables := by
        intro x hx
        rcases List.mem_append.mp hx with hx | hx
        · exact hS x hx
        · exact (List.mem_singleton.mp hx) ▸ htT
      have := ih ⟨(stepNeighbors s.deg rest (graphOf edges t)).1,
        (stepNeighbors s.deg rest (graphOf edges t)).2,
        s.sortedT ++ [t]⟩ hQ' hS'
      intro x hx
      refine this x ?_
      revert hx
      simp [kahnLoop, hq]

theorem kahnInit_inv (edges : List (String × String)) (tables : List String)
    (hnd : tables.Nodup) : KInv edges tables (kahnInit tables edges) := by
  refine ⟨List.nodup_nil, hnd.filter _, ?_, ?_, ?_, ?_, ?_, ?_⟩
  · intro x _
    exact List.not_mem_nil x
  · intro x
    show (deg0N edges x : Int) = (deg0N edges x : Int) - consumedCnt edges [] x
    rw [consumedCnt_nil2]
    push_cast
    ring
  · intro x hx
    have h' : deg0N edges x = 0 := by simpa using (List.mem_filter.mp hx).2
    show (deg0N edges x : Int) = 0
    exact_mod_cast h'
  · intro x hx
    exact absurd hx (List.not_mem_nil x)
  · intro x hx h0
    refine Or.inl (List.mem_filter.mpr ⟨hx, ?_⟩)
    have h0' : (deg0N edges x : Int) = 0 := h0
    simpa using h0'
  · intro x hx
    exact absurd hx (List.not_mem_nil x)

theorem kahnRun_inv (edges : List (String × String)) (tables : List String)
    (hnd : tables.Nodup) : KInv edges tables (kahnRun tables edges) :=
  kahnLoop_inv edges tables _ _ (kahnInit_inv edges tables hnd)

theorem kahnRun_queue_empty (edges : List (String × String))
    (tables : List String) (hnd : tables.Nodup) :
    (kahnRun tables edges).queue = [] := by
  refine kahnLoop_queue_empty edges tables _ _ (kahnInit_inv edges tables hnd) ?_
  have h1 : (kahnInit tables edges).queue.length ≤ tables.length :=
    List.length_filter_le _ _
  have h2 : unconsumedCnt edges [] ≤ edges.length :=
    List.length_filter_le _ _
  simp only [phiK, kahnInit] at *
  omega

theorem kahnRun_mem (edges : List (String × String)) (tables : List String)
    (hkeys : ∀ e ∈ edges, e.1 ∈ tables) :
    ∀ x ∈ (kahnRun tables edges).sortedT, x ∈ tables := by
  refine kahnLoop_mem edges tables hkeys _ _ ?_ ?_
  · intro x hx
    exact (List.mem_filter.mp hx).1
  · intro x hx
    exact absurd hx (List.not_mem_nil x)

theorem kahnRun_complete (edges : List (String × String))
    (tables : List String) (hnd : tables.Nodup)
    (hclosed : ∀ e ∈ edges, e.2 ∈ tables)
    (hacyc : WellFounded (fun r t : String => (t, r) ∈ edges)) :
    ∀ x ∈ tables, x ∈ (kahnRun tables edges).sortedT := by
  have inv := kahnRun_inv edges tables hnd
  have hqe := kahnRun_queue_empty edges tables hnd
  intro x
  refine @WellFounded.induction String (fun r t => (t, r) ∈ edges) hacyc
    (fun y => y ∈ tables → y ∈ (kahnRun tables edges).sortedT) x ?_
  intro y IH hy
  by_contra hns
  have hdeg0 : (kahnRun tables edges).deg y ≠ 0 := by
    intro h0
    rcases inv.zeroLoc y hy h0 with h | h
    · rw [hqe] at h
      exact List.not_mem_nil y h
    · exact hns h
  have hdeqy := inv.degEq y
  have hle := consumedCnt_le edges (kahnRun tables edges).sortedT y
  have hlt : consumedCnt edges (kahnRun tables edges).sortedT y
      < deg0N edges y := by omega
  obtain ⟨e, he, he1, he2⟩ := consumedCnt_lt _ _ _ hlt
  have hrel : (y, e.2) ∈ edges := by
    have hpe : (y, e.2) = e := by rw [← he1]
    rw [hpe]
    exact he
  exact he2 (IH e.2 hrel (hclosed e he))

theorem topo_eq_sortedT_of_complete (tables : List String)
    (fks : List (String × List FKRow))
    (hsub : ∀ x ∈ tables, x ∈ (kahnRun tables (fkEdges fks)).sortedT) :
    topological_sort_tables tables fks
      = (kahnRun tables (fkEdges fks)).sortedT := by
  have hfil : tables.filter
      (fun x => x ∉ (kahnRun tables (fkEdges fks)).sortedT) = [] := by
    rw [List.filter_eq_nil_iff]
    intro a ha
    simp [hsub a ha]
  show (if (kahnRun tables (fkEdges fks)).sortedT.length ≠ tables.length
    then (kahnRun tables (fkEdges fks)).sortedT
      ++ tables.filter (fun x => x ∉ (kahnRun tables (fkEdges fks)).sortedT)
    else (kahnRun tables (fkEdges fks)).sortedT)
    = (kahnRun tables (fkEdges fks)).sortedT
  by_cases hlen : (kahnRun tables (fkEdges fks)).sortedT.length ≠ tables.length
  · rw [if_pos hlen, hfil, List.append_nil]
  · rw [if_neg hlen]

/-- C1 amended: when every referenced table is itself among the input tables
(no dangling references) and the foreign-key graph is acyclic (well-founded
reference relation), the resolver emits every table, and each table lands
strictly after every table it references. -/
theorem topo_sort_respects_fk_order (tables : List String)
    (fks : List (String × List FKRow)) (hnd : tables.Nodup)
    (hclosed : ∀ e ∈ fkEdges fks, e.2 ∈ tables)
    (hacyc : WellFounded (fun r t : String => (t, r) ∈ fkEdges fks))
    (t r : String) (ht : t ∈ tables) (he : (t, r) ∈ fkEdges fks) :
    r ∈ topological_sort_tables tables fks
    ∧ t ∈ topological_sort_tables tables fks
    ∧ (topological_sort_tables tables fks).indexOf r
        < (topological_sort_tables tables fks).indexOf t := by
  have hsub := kahnRun_complete (fkEdges fks) tables hnd hclosed hacyc
  have heq := topo_eq_sortedT_of_complete tables fks hsub
  have inv := kahnRun_inv (fkEdges fks) tables hnd
  have htS : t ∈ (kahnRun tables (fkEdges fks)).sortedT := hsub t ht
  obtain ⟨hrS, hidx⟩ := inv.ordered t htS (t, r) he rfl
  rw [heq]
  exact ⟨hrS, htS, hidx⟩

/-- C1 counterexample: catalog order [b, a], where b references a and a
references the absent table x.  The graph is acyclic, yet the starved queue
never pops anything and the fallback append of line 82 returns the catalog
order [b, a], placing b before the table a it references. -/
theorem topo_sort_dangling_counterexample :
    topological_sort_tables ["b", "a"]
        [("b", [⟨"a", "c", "d", "", ""⟩]), ("a", [⟨"x", "c", "d", "", ""⟩])]
      = ["b", "a"]
    ∧ ("b", "a") ∈ fkEdges
        [("b", [⟨"a", "c", "d", "", ""⟩]), ("a", [⟨"x", "c", "d", "", ""⟩])]
    ∧ WellFounded (fun r t : String => (t, r) ∈ fkEdges
        [("b", [⟨"a", "c", "d", "", ""⟩]), ("a", [⟨"x", "c", "d", "", ""⟩])])
    ∧ ¬ (topological_sort_tables ["b", "a"]
          [("b", [⟨"a", "c", "d", "", ""⟩]), ("a", [⟨"x", "c", "d", "", ""⟩])]).indexOf "a"
        < (topological_sort_tables ["b", "a"]
          [("b", [⟨"a", "c", "d", "", ""⟩]), ("a", [⟨"x", "c", "d", "", ""⟩])]).indexOf "b" := by
  have hE : fkEdges
      [("b", [(⟨"a", "c", "d", "", ""⟩ : FKRow)]), ("a", [⟨"x", "c", "d", "", ""⟩])]
      = [("b", "a"), ("a", "x")] := rfl
  refine ⟨by decide, by decide, ?_, by decide⟩
  rw [hE]
  have accx : Acc (fun r t : String => (t, r) ∈ [("b", "a"), ("a", "x")]) "x" := by
    constructor
    intro z hz
    rcases List.mem_cons.mp hz with h | h
    · rw [Prod.mk.injEq] at h
      exact absurd h.1 (by decide)
    · rcases List.mem_cons.mp h with h | h
      · rw [Prod.mk.injEq] at h
        exact absurd h.1 (by decide)
      · exact absurd h (List.not_mem_nil _)
  have acca : Acc (fun r t : String => (t, r) ∈ [("b", "a"), ("a", "x")]) "a" := by
    constructor
    intro z hz
    rcases List.mem_cons.mp hz with h | h
    · rw [Prod.mk.injEq] at h
      exact absurd h.1 (by decide)
    · rcases List.mem_cons.mp h with h | h
      · rw [Prod.mk.injEq] at h
        rw [h.2]
        exact accx
      · exact absurd h (List.not_mem_nil _)
  constructor
  intro t
  constructor
  intro z hz
  rcases List.mem_cons.mp hz with h | h
  · rw [Prod.mk.injEq] at h
    rw [h.2]
    exact acca
  · rcases List.mem_cons.mp h with h | h
    · rw [Prod.mk.injEq] at h
      rw [h.2]
      exact accx
    · exact absurd h (List.not_mem_nil _)

/-- Witness for `topo_sort_respects_fk_order`: catalog [b, a] with b
referencing a resolves to [a, b], placing a strictly before b. -/
theorem topo_sort_respects_fk_order_witness :
    "a" ∈ topological_sort_tables ["b", "a"] [("b", [⟨"a", "c", "d", "", ""⟩])]
    ∧ "b" ∈ topological_sort_tables ["b", "a"] [("b", [⟨"a", "c", "d", "", ""⟩])]
    ∧ (topological_sort_tables ["b", "a"]
        [("b", [⟨"a", "c", "d", "", ""⟩])]).indexOf "a"
      < (topological_sort_tables ["b", "a"]
        [("b", [⟨"a", "c", "d", "", ""⟩])]).indexOf "b" := by
  have hE : fkEdges [("b", [(⟨"a", "c", "d", "", ""⟩ : FKRow)])]
      = [("b", "a")] := rfl
  refine topo_sort_respects_fk_order ["b", "a"]
    [("b", [⟨"a", "c", "d", "", ""⟩])] (by decide) (by decide) ?_ "b" "a"
    (by decide) (by decide)
  rw [hE]
  have acca : Acc (fun r t : String => (t, r) ∈ [("b", "a")]) "a" := by
    constructor
    intro z hz
    rcases List.mem_cons.mp hz with h | h
    · rw [Prod.mk.injEq] at h
      exact absurd h.1 (by decide)
    · exact absurd h (List.not_mem_nil _)
  constructor
  intro t
  constructor
  intro z hz
  rcases List.mem_cons.mp hz with h | h
  · rw [Prod.mk.injEq] at h
    rw [h.2]
    exact acca
  · exact absurd h (List.not_mem_nil _)

/-- C6: whatever the foreign-key map (cycles included), the resolver returns
every input table exactly once, returns nothing outside the catalog, and has
the shape emitted-prefix ++ remaining-tables-in-catalog-order; the function
is total, so the run continues.  The hypotheses are the call-site facts:
catalog names are distinct and the map is keyed by the catalog tables. -/
theorem topo_sort_all_tables_once (tables : List String)
    (fks : List (String × List FKRow)) (hnd : tables.Nodup)
    (hkeys : ∀ p ∈ fks, p.1 ∈ tables) :
    (∀ t ∈ tables, (topological_sort_tables tables fks).count t = 1)
    ∧ (∀ x ∈ topological_sort_tables tables fks, x ∈ tables)
    ∧ ∃ emitted : List String,
        topological_sort_tables tables fks
          = emitted ++ tables.filter (fun x => x ∉ emitted) := by
  have hkeys' : ∀ e ∈ fkEdges fks, e.1 ∈ tables := by
    intro e he
    simp only [fkEdges, List.mem_flatMap, List.mem_map] at he
    obtain ⟨p, hp, fk, -, hfe⟩ := he
    rw [← hfe]
    exact hkeys p hp
  have hS := kahnRun_mem (fkEdges fks) tables hkeys'
  have inv := kahnRun_inv (fkEdges fks) tables hnd
  by_cases hlen : (kahnRun tables (fkEdges fks)).sortedT.length ≠ tables.length
  · have hres : topological_sort_tables tables fks
        = (kahnRun tables (fkEdges fks)).sortedT
          ++ tables.filter (fun x => x ∉ (kahnRun tables (fkEdges fks)).sortedT) := by
      show (if (kahnRun tables (fkEdges fks)).sortedT.length ≠ tables.length
        then (kahnRun tables (fkEdges fks)).sortedT
          ++ tables.filter (fun x => x ∉ (kahnRun tables (fkEdges fks)).sortedT)
        else (kahnRun tables (fkEdges fks)).sortedT) = _
      rw [if_pos hlen]
    refine ⟨?_, ?_, ⟨(kahnRun tables (fkEdges fks)).sortedT, hres⟩⟩
    · intro t htab
      rw [hres, List.count_append]
      by_cases hts : t ∈ (kahnRun tables (fkEdges fks)).sortedT
      · have h1 := List.count_eq_one_of_mem inv.nodupS hts
        have h2 : List.count t (tables.filter
            (fun x => x ∉ (kahnRun tables (fkEdges fks)).sortedT)) = 0 := by
          rw [List.count_eq_zero]
          intro hmem
          have := (List.mem_filter.mp hmem).2
          simp only [decide_eq_true_eq] at this
          exact this hts
        omega
      · have h1 : List.count t (kahnRun tables (fkEdges fks)).sortedT = 0 :=
          List.count_eq_zero.mpr hts
        have h2 : List.count t (tables.filter
            (fun x => x ∉ (kahnRun tables (fkEdges fks)).sortedT))
            = List.count t tables := List.count_filter (by simpa using hts)
        have h3 := List.count_eq_one_of_mem hnd htab
        omega
    · intro x hx
      rw [hres] at hx
      rcases List.mem_append.mp hx with hx | hx
      · exact hS x hx
      · exact (List.mem_filter.mp hx).1
  · push_neg at hlen
    have hperm : (kahnRun tables (fkEdges fks)).sortedT.Perm tables :=
      (List.Nodup.subperm inv.nodupS (fun x hx => hS x hx)).perm_of_length_le
        (le_of_eq hlen.symm)
    have hsub2 : ∀ x ∈ tables, x ∈ (kahnRun tables (fkEdges fks)).sortedT :=
      fun x hx => hperm.mem_iff.mpr hx
    have hres : topological_sort_tables tables fks
        = (kahnRun tables (fkEdges fks)).sortedT :=
      topo_eq_sortedT_of_complete tables fks hsub2
    refine ⟨?_, ?_, ⟨(kahnRun tables (fkEdges fks)).sortedT, ?_⟩⟩
    · intro t htab
      rw [hres, hperm.count_eq t]
      exact List.count_eq_one_of_mem hnd htab
    · intro x hx
      rw [hres] at hx
      exact hS x hx
    · have hfil : tables.filter
          (fun x => x ∉ (kahnRun tables (fkEdges fks)).sortedT) = [] := by
        rw [List.filter_eq_nil_iff]
        intro a ha
        simp [hsub2 a ha]
      rw [hres, hfil, List.append_nil]

/-- Witness for `topo_sort_all_tables_once` on a two-cycle between a and b:
both appear exactly once and the output is the catalog append shape. -/
theorem topo_sort_all_tables_once_witness :
    (∀ t ∈ ["a", "b"], (topological_sort_tables ["a", "b"]
        [("a", [⟨"b", "c", "d", "", ""⟩]), ("b", [⟨"a", "c", "d", "", ""⟩])]).count t = 1)
    ∧ (∀ x ∈ topological_sort_tables ["a", "b"]
        [("a", [⟨"b", "c", "d", "", ""⟩]), ("b", [⟨"a", "c", "d", "", ""⟩])],
        x ∈ ["a", "b"])
    ∧ ∃ emitted : List String,
        topological_sort_tables ["a", "b"]
          [("a", [⟨"b", "c", "d", "", ""⟩]), ("b", [⟨"a", "c", "d", "", ""⟩])]
          = emitted ++ ["a", "b"].filter (fun x => x ∉ emitted) :=
  topo_sort_all_tables_once ["a", "b"]
    [("a", [⟨"b", "c", "d", "", ""⟩]), ("b", [⟨"a", "c", "d", "", ""⟩])]
    (by decide) (by decide)
